import Mathlib

/-!
Verification of the numeric-conversion core of repnum.c: the binary formatter
num2bin, the parser wrapper str2ull (around the C library function strtoull),
and the validation helpers ensurenum / ensurebase, plus the base-option
narrowing performed in parseopts.

Modelling conventions:
* C strings are null-free lists of characters; an empty list is a string whose
  first character is the null byte.  A possibly-NULL char pointer is an
  Option (List Char).
* The output buffer of num2bin is a total function from indices to characters;
  a write is a pointwise functional update.  The returned char pointer is
  modelled as Option Int: none is NULL, some k is buf + k (so some (-1) is the
  out-of-bounds pointer one before the buffer).
* unsigned long long arithmetic is Nat with explicit reduction modulo 2 ^ 64
  where the C computation wraps; int narrowing is explicit in toCInt.
* errno is threaded as a Bool flag (true when errno = ERANGE on entry);
  strtoull sets it on range errors and leaves it unchanged otherwise.
-/

namespace Repnum

/-- Digit value of a character as recognized by the C numeral scanner:
0-9 give 0..9, a-z and A-Z give 10..35, anything else is not a digit. -/
def digitVal (c : Char) : Option Nat :=
  if '0' ≤ c ∧ c ≤ '9' then some (c.toNat - 48)
  else if 'a' ≤ c ∧ c ≤ 'z' then some (c.toNat - 87)
  else if 'A' ≤ c ∧ c ≤ 'Z' then some (c.toNat - 55)
  else none

/-- Whether a character is a valid digit in base b. -/
def digitOk (b : Nat) (c : Char) : Bool :=
  match digitVal c with
  | some d => decide (d < b)
  | none => false

/-- Digit value with default 0, used to state numeral denotations. -/
def dval (c : Char) : Nat := (digitVal c).getD 0

/-- The isspace test of the C locale: space, tab, newline, vertical tab,
form feed, carriage return. -/
def isSpaceC (c : Char) : Bool :=
  c == ' ' || c == '\t' || c == '\n' || c == '\x0b' || c == '\x0c' || c == '\r'

/-- Skip the leading whitespace of the subject sequence, as strtoull does. -/
def dropSpaces : List Char → List Char
  | [] => []
  | c :: cs => if isSpaceC c then dropSpaces cs else c :: cs

/-- Consume an optional single sign character; the Bool records a minus sign. -/
def signSplit (t : List Char) : Bool × List Char :=
  match t with
  | [] => (false, [])
  | c :: r => if c = '-' then (true, r) else if c = '+' then (false, r) else (false, c :: r)

/-- Whether the text starts with a hexadecimal 0x / 0X marker that strtoull
would consume: only for base 16 or base 0, and only when a hexadecimal digit
follows the marker. -/
def hexMark16 (base : Nat) (t : List Char) : Bool :=
  match t with
  | c0 :: c1 :: r =>
    (base == 16 || base == 0) && (c0 == '0') && (c1 == 'x' || c1 == 'X') &&
      (match r with | d :: _ => digitOk 16 d | [] => false)
  | _ => false

/-- Resolve the effective base and strip a consumed 0x marker: base 0 means
auto-detection (0x prefix gives 16, leading 0 gives 8, otherwise 10). -/
def resolveBase (base : Nat) (t : List Char) : Nat × List Char :=
  if hexMark16 base t then (16, t.drop 2)
  else if base = 0 then (if t.head? = some '0' then (8, t) else (10, t))
  else (base, t)

/-- Consume the longest run of valid base-b digits, Horner-accumulating their
exact value; returns the value and the unconsumed suffix. -/
def parseDigits (b : Nat) : Nat → List Char → Nat × List Char
  | acc, [] => (acc, [])
  | acc, c :: cs =>
    match digitVal c with
    | some d => if d < b then parseDigits b (acc * b + d) cs else (acc, c :: cs)
    | none => (acc, c :: cs)

/-- Result of a strtoull call: the returned value, the suffix starting at the
stored end pointer (the whole input when no conversion was performed), and
whether errno was set to ERANGE. -/
structure StrtoullResult where
  val : Nat
  rest : List Char
  erange : Bool
  deriving DecidableEq

/-- The C library function strtoull per ISO C semantics: skip whitespace,
consume an optional sign, resolve the base (consuming a 0x marker when
applicable), read the longest valid digit run.  When nothing was consumed the
end pointer is the original string; a value out of unsigned 64-bit range
yields 2 ^ 64 - 1 with ERANGE; a minus sign negates the value in the
unsigned type, i.e. modulo 2 ^ 64. -/
def strtoullModel (s : List Char) (base : Nat) : StrtoullResult :=
  let t1 := dropSpaces s
  let sg := signSplit t1
  let br := resolveBase base sg.2
  let pr := parseDigits br.1 0 br.2
  if pr.2.length = br.2.length then
    { val := 0, rest := s, erange := false }
  else if 2 ^ 64 ≤ pr.1 then
    { val := 2 ^ 64 - 1, rest := pr.2, erange := true }
  else
    { val := if sg.1 then (2 ^ 64 - pr.1) % 2 ^ 64 else pr.1, rest := pr.2, erange := false }

/-- The errorcodes enumeration of repnum.c. -/
inductive Errorcode where
  | SUCCESS
  | FAILURE
  | INVALID_ARGS
  | INCOMPLETE
  | OVERFLOW
  deriving DecidableEq

/-- str2ull of repnum.c.  The first argument is whether errno already equals
ERANGE on entry (the code reads errno without resetting it).  The num
out-parameter is passed as its current pointee (none for a NULL pointer) and
returned possibly updated. -/
def str2ull (errnoRange : Bool) (str : Option (List Char)) (num : Option Nat) (base : Nat) :
    Errorcode × Option Nat :=
  match str, num with
  | none, n => (Errorcode.INVALID_ARGS, n)
  | some s, n =>
    if s = [] then (Errorcode.INVALID_ARGS, n)
    else
      match n with
      | none => (Errorcode.INVALID_ARGS, none)
      | some w =>
        let r := strtoullModel s base
        if r.val = 0 ∧ r.rest = s then (Errorcode.FAILURE, some w)
        else if errnoRange || r.erange then (Errorcode.OVERFLOW, some w)
        else if r.rest = [] then (Errorcode.SUCCESS, some r.val)
        else (Errorcode.INCOMPLETE, some r.val)

/-- ensurenum of repnum.c.  When the caller passes a NULL num pointer the code
uses a local uninitialized temporary, modelled by the arbitrary value temp.
The switch sends FAILURE, INCOMPLETE and OVERFLOW to errx(1, ...), modelled as
Except.error 1; any other status falls through to return the pointee. -/
def ensurenum (temp : Nat) (errnoRange : Bool) (s : Option (List Char)) (n : Option Nat)
    (b : Nat) : Except Nat Nat :=
  let p := match n with | none => temp | some v => v
  let r := str2ull errnoRange s (some p) b
  match r.1 with
  | Errorcode.FAILURE => Except.error 1
  | Errorcode.INCOMPLETE => Except.error 1
  | Errorcode.OVERFLOW => Except.error 1
  | _ => Except.ok (r.2.getD p)

/-- ensurebase of repnum.c: errx(1, ...) for a base outside [2, 36], modelled
as Except.error 1; otherwise the candidate is returned unchanged.  The
argument is the C int the function receives. -/
def ensurebase (b : Int) : Except Nat Int :=
  if b < 2 ∨ b > 36 then Except.error 1 else Except.ok b

/-- Conversion of an unsigned long long value to a C int as on the target
platform: reduce modulo 2 ^ 32 and interpret in two's complement. -/
def toCInt (v : Nat) : Int :=
  if v % 2 ^ 32 < 2 ^ 31 then ((v % 2 ^ 32 : Nat) : Int)
  else ((v % 2 ^ 32 : Nat) : Int) - 2 ^ 32

/-- The -b option handling of parseopts:
info.base = ensurebase(ensurenum(optarg, 0, 10)), where the unsigned long long
result of ensurenum is narrowed to int at the call to ensurebase. -/
def processBaseOption (temp : Nat) (errnoRange : Bool) (optarg : Option (List Char)) :
    Except Nat Int :=
  match ensurenum temp errnoRange optarg none 10 with
  | Except.error c => Except.error c
  | Except.ok v => ensurebase (toCInt v)

/-- The loop of num2bin.  The second argument is the counter n before the
pre-decrement of the while condition; the result is the buffer after the loop
together with the final value of n (0 when the loop ran out of capacity). -/
def num2binLoop : Nat → Nat → (Nat → Char) → ((Nat → Char) × Nat)
  | _, 0, buf => (buf, 0)
  | num, m + 1, buf =>
    if m = 0 then (buf, 0)
    else
      let buf' := fun i => if i = m - 1 then (if num % 2 = 0 then '0' else '1') else buf i
      if num / 2 = 0 then (buf', m)
      else num2binLoop (num / 2) m buf'

/-- num2bin of repnum.c: write the terminator at buf[n-1], run the loop, and
return the final buffer and the pointer &buf[n-1] for the final n.  The
function has a single return statement returning an offset into the buffer,
so the pointer is always some offset and never none (NULL); after capacity
exhaustion the final n is 0 and the returned offset is -1, i.e. buf - 1. -/
def num2bin (num : Nat) (buf : Nat → Char) (n : Nat) : (Nat → Char) × Option Int :=
  let buf0 := fun i => if i = n - 1 then Char.ofNat 0 else buf i
  let r := num2binLoop num n buf0
  (r.1, some ((r.2 : Int) - 1))

/-- Read the null-terminated C string starting at index i of the buffer; the
fuel bounds the walk and is taken at least the buffer capacity by callers. -/
def readFrom (buf : Nat → Char) (i : Nat) : Nat → List Char
  | 0 => []
  | f + 1 => if buf i = Char.ofNat 0 then [] else buf i :: readFrom buf (i + 1) f

/-- The string the caller of num2bin observes: the null-terminated text at the
returned pointer, or none when the pointer does not point into the buffer
(which includes the NULL pointer the documentation of num2bin promises on
capacity exhaustion). -/
def num2binStr (num : Nat) (buf : Nat → Char) (n : Nat) : Option (List Char) :=
  match num2bin num buf n with
  | (buf1, some p) => if 0 ≤ p then some (readFrom buf1 p.toNat n) else none
  | (_, none) => none

/-- The k characters of the buffer starting at index i, as a list. -/
def readSeg (buf : Nat → Char) (i : Nat) : Nat → List Char
  | 0 => []
  | k + 1 => buf i :: readSeg buf (i + 1) k

/-- Modelled from the spec: binary digit accumulator.  The fuel-indexed loop
divides by two, prepending the digit character of each remainder; fuel at
least the value makes it total. -/
def specBinDigitsAux : Nat → Nat → List Char → List Char
  | 0, _, acc => acc
  | f + 1, v, acc =>
    if v = 0 then acc
    else specBinDigitsAux f (v / 2) ((if v % 2 = 0 then '0' else '1') :: acc)

/-- Modelled from the spec: digits of v in binary, most significant first,
prepended to acc; empty for v = 0. -/
def specBinDigits (v : Nat) (acc : List Char) : List Char := specBinDigitsAux v v acc

/-- Modelled from the spec: the minimal binary representation of a value, with
no leading zeros and the single digit 0 for the value zero. -/
def specBinaryRep (v : Nat) : List Char :=
  if v = 0 then ['0'] else specBinDigits v []

/-- The number of significant binary digits of a value: the length of its
minimal binary representation (one for the value zero). -/
def sigBits (v : Nat) : Nat := (specBinaryRep v).length

/-- Horner evaluation of a digit list in base b starting from accumulator a:
the value a numeral denotes. -/
def evalAcc (b : Nat) : Nat → List Char → Nat
  | a, [] => a
  | a, c :: cs => evalAcc b (a * b + dval c) cs

/-- The numeric value a numeral denotes in base b. -/
def specNumeralValue (b : Nat) (s : List Char) : Nat := evalAcc b 0 s

/-! ### Properties of the minimal binary representation -/

theorem specBinDigitsAux_irrel : ∀ f g v acc, v ≤ f → v ≤ g →
    specBinDigitsAux f v acc = specBinDigitsAux g v acc := by
  intro f
  induction f with
  | zero =>
    intro g v acc hf _
    have hv : v = 0 := by omega
    subst hv
    cases g <;> simp [specBinDigitsAux]
  | succ f ih =>
    intro g v acc hf hg
    cases g with
    | zero =>
      have hv : v = 0 := by omega
      subst hv
      simp [specBinDigitsAux]
    | succ g =>
      by_cases hv : v = 0
      · subst hv; simp [specBinDigitsAux]
      · simp only [specBinDigitsAux, if_neg hv]
        exact ih g (v / 2) _ (by omega) (by omega)

theorem specBinDigits_zero (acc : List Char) : specBinDigits 0 acc = acc := rfl

theorem specBinDigits_step (v : Nat) (acc : List Char) (hv : 1 ≤ v) :
    specBinDigits v acc =
      specBinDigits (v / 2) ((if v % 2 = 0 then '0' else '1') :: acc) := by
  obtain ⟨f, rfl⟩ : ∃ f, v = f + 1 := ⟨v - 1, by omega⟩
  show specBinDigitsAux (f + 1) (f + 1) acc = _
  simp only [specBinDigitsAux, if_neg (by omega : ¬f + 1 = 0)]
  exact specBinDigitsAux_irrel f ((f + 1) / 2) ((f + 1) / 2) _ (by omega) le_rfl

theorem specBinDigits_shift (v : Nat) : ∀ acc, specBinDigits v acc = specBinDigits v [] ++ acc := by
  induction v using Nat.strongRecOn with
  | ind v ih =>
    intro acc
    by_cases hv : v = 0
    · subst hv; simp [specBinDigits_zero]
    · rw [specBinDigits_step v acc (by omega), specBinDigits_step v [] (by omega),
        ih (v / 2) (by omega), ih (v / 2) (by omega)
          ((if v % 2 = 0 then '0' else '1') :: [])]
      simp

theorem specBinaryRep_append (v : Nat) (hv : 2 ≤ v) :
    specBinaryRep v = specBinaryRep (v / 2) ++ [if v % 2 = 0 then '0' else '1'] := by
  have h1 : ¬v = 0 := by omega
  have h2 : ¬v / 2 = 0 := by omega
  simp only [specBinaryRep, if_neg h1, if_neg h2]
  rw [specBinDigits_step v [] (by omega), specBinDigits_shift]

theorem sigBits_zero : sigBits 0 = 1 := rfl

theorem sigBits_one : sigBits 1 = 1 := rfl

theorem sigBits_step (v : Nat) (hv : 2 ≤ v) : sigBits v = sigBits (v / 2) + 1 := by
  simp [sigBits, specBinaryRep_append v hv]

theorem sigBits_pos (v : Nat) : 1 ≤ sigBits v := by
  by_cases h : v < 2
  · have : v = 0 ∨ v = 1 := by omega
    rcases this with rfl | rfl <;> decide
  · rw [sigBits_step v (by omega)]; omega

theorem sigBits_le : ∀ n, 1 ≤ n → ∀ v, v < 2 ^ n → sigBits v ≤ n := by
  intro n
  induction n with
  | zero => omega
  | succ n ih =>
    intro _ v hv
    by_cases h2 : v < 2
    · have : v = 0 ∨ v = 1 := by omega
      rcases this with rfl | rfl <;> simp [sigBits_zero, sigBits_one]
    · have hn : 1 ≤ n := by
        by_contra hn
        have : n = 0 := by omega
        subst this
        simp [pow_succ] at hv
        omega
      have hv2 : v / 2 < 2 ^ n := by
        rw [Nat.div_lt_iff_lt_mul (by norm_num)]
        rw [← pow_succ]
        exact hv
      rw [sigBits_step v (by omega)]
      have := ih hn (v / 2) hv2
      omega

theorem specBinDigits_chars (v : Nat) : ∀ acc, (∀ c ∈ acc, c = '0' ∨ c = '1') →
    ∀ c ∈ specBinDigits v acc, c = '0' ∨ c = '1' := by
  induction v using Nat.strongRecOn with
  | ind v ih =>
    intro acc hacc
    by_cases hv : v = 0
    · subst hv; simpa [specBinDigits_zero] using hacc
    · rw [specBinDigits_step v acc (by omega)]
      refine ih (v / 2) (by omega) _ ?_
      intro c hc
      rcases List.mem_cons.1 hc with rfl | h
      · split_ifs <;> simp
      · exact hacc c h

theorem specBinaryRep_chars (v : Nat) : ∀ c ∈ specBinaryRep v, c = '0' ∨ c = '1' := by
  unfold specBinaryRep
  split
  · simp
  · exact specBinDigits_chars v [] (by simp)

theorem specBinDigits_head (v : Nat) : ∀ acc, 1 ≤ v → ∃ t, specBinDigits v acc = '1' :: t := by
  induction v using Nat.strongRecOn with
  | ind v ih =>
    intro acc hv
    by_cases h2 : v < 2
    · have : v = 1 := by omega
      subst this
      exact ⟨acc, rfl⟩
    · rw [specBinDigits_step v acc (by omega)]
      exact ih (v / 2) (by omega) _ (by omega)

theorem specBinaryRep_head (v : Nat) (hv : 1 ≤ v) : (specBinaryRep v).head? = some '1' := by
  unfold specBinaryRep
  rw [if_neg (by omega : ¬v = 0)]
  obtain ⟨t, ht⟩ := specBinDigits_head v [] hv
  rw [ht]
  rfl

theorem evalAcc_append (b : Nat) : ∀ l m a, evalAcc b a (l ++ m) = evalAcc b (evalAcc b a l) m := by
  intro l
  induction l with
  | nil => intro m a; rfl
  | cons c cs ih => intro m a; simp [evalAcc, ih]

theorem specNumeralValue_rep : ∀ v, specNumeralValue 2 (specBinaryRep v) = v := by
  intro v
  induction v using Nat.strongRecOn with
  | ind v ih =>
    by_cases h2 : v < 2
    · have : v = 0 ∨ v = 1 := by omega
      rcases this with rfl | rfl <;> decide
    · have hv : 2 ≤ v := by omega
      have ihv := ih (v / 2) (by omega)
      unfold specNumeralValue at ihv ⊢
      rw [specBinaryRep_append v hv, evalAcc_append, ihv]
      have d0 : dval '0' = 0 := rfl
      have d1 : dval '1' = 1 := rfl
      rcases Nat.mod_two_eq_zero_or_one v with h | h <;>
        simp [evalAcc, h, d0, d1] <;> omega

/-! ### Correctness of the num2bin loop -/

theorem readSeg_snoc (buf : Nat → Char) : ∀ k i,
    readSeg buf i (k + 1) = readSeg buf i k ++ [buf (i + k)] := by
  intro k
  induction k with
  | zero => intro i; simp [readSeg]
  | succ k ih =>
    intro i
    show buf i :: readSeg buf (i + 1) (k + 1) = (buf i :: readSeg buf (i + 1) k) ++ _
    rw [ih (i + 1)]
    simp [Nat.add_assoc, Nat.add_comm 1 k]

theorem readSeg_congr (buf buf' : Nat → Char) : ∀ k i,
    (∀ j, i ≤ j → j < i + k → buf j = buf' j) → readSeg buf i k = readSeg buf' i k := by
  intro k
  induction k with
  | zero => intro i _; rfl
  | succ k ih =>
    intro i h
    show buf i :: _ = buf' i :: _
    rw [h i le_rfl (by omega), ih (i + 1) (fun j h1 h2 => h j (by omega) (by omega))]

theorem readFrom_of_seg : ∀ (k : Nat) (buf : Nat → Char) (i fuel : Nat) (l : List Char),
    readSeg buf i k = l → (∀ c ∈ l, ¬c = Char.ofNat 0) → buf (i + k) = Char.ofNat 0 →
    k < fuel → readFrom buf i fuel = l := by
  intro k
  induction k with
  | zero =>
    intro buf i fuel l hseg _ hterm hfuel
    obtain ⟨f, rfl⟩ : ∃ f, fuel = f + 1 := ⟨fuel - 1, by omega⟩
    simp only [readFrom]
    rw [if_pos (by simpa using hterm)]
    exact hseg.symm ▸ rfl
  | succ k ih =>
    intro buf i fuel l hseg hchars hterm hfuel
    obtain ⟨f, rfl⟩ : ∃ f, fuel = f + 1 := ⟨fuel - 1, by omega⟩
    have hhead : buf i :: readSeg buf (i + 1) k = l := hseg
    have hne : ¬buf i = Char.ofNat 0 := by
      apply hchars
      rw [← hhead]
      exact List.mem_cons_self _ _
    simp only [readFrom, if_neg hne]
    rw [← hhead]
    congr 1
    refine ih buf (i + 1) f (readSeg buf (i + 1) k) rfl ?_ ?_ (by omega)
    · intro c hc
      apply hchars
      rw [← hhead]
      exact List.mem_cons_of_mem _ hc
    · have : i + 1 + k = i + (k + 1) := by omega
      rw [this]
      exact hterm

/-- The loop invariant of num2bin: with capacity margin for all significant
bits plus the pre-decrement, the loop ends with counter m - sigBits num,
leaves indices at or above m - 1 untouched, and deposits the minimal binary
representation in the sigBits num cells that end at index m - 2. -/
theorem num2binLoop_spec : ∀ num m (buf : Nat → Char), sigBits num + 1 ≤ m →
    (num2binLoop num m buf).2 = m - sigBits num ∧
    (∀ i, m - 1 ≤ i → (num2binLoop num m buf).1 i = buf i) ∧
    readSeg (num2binLoop num m buf).1 (m - 1 - sigBits num) (sigBits num) =
      specBinaryRep num := by
  intro num
  induction num using Nat.strongRecOn with
  | ind num ih =>
    intro m buf hm
    by_cases h2 : num < 2
    · have hs1 : sigBits num = 1 := by
        have : num = 0 ∨ num = 1 := by omega
        rcases this with rfl | rfl <;> rfl
      rw [hs1] at hm
      obtain ⟨m', rfl⟩ : ∃ m', m = m' + 1 := ⟨m - 1, by omega⟩
      have hm0 : ¬m' = 0 := by omega
      have hdiv : num / 2 = 0 := Nat.div_eq_of_lt h2
      have hunf : num2binLoop num (m' + 1) buf =
          ((fun i => if i = m' - 1 then (if num % 2 = 0 then '0' else '1') else buf i), m') := by
        simp [num2binLoop, hm0, hdiv]
      rw [hunf, hs1]
      refine ⟨by show m' = m' + 1 - 1; omega, ?_, ?_⟩
      · intro i hi
        have hne : ¬i = m' - 1 := by omega
        simp [hne]
      · have hidx : m' + 1 - 1 - 1 = m' - 1 := by omega
        rw [hidx]
        show (if m' - 1 = m' - 1 then (if num % 2 = 0 then '0' else '1') else buf (m' - 1)) ::
          [] = specBinaryRep num
        rw [if_pos rfl]
        have : num = 0 ∨ num = 1 := by omega
        rcases this with rfl | rfl <;> rfl
    · have hnum2 : 2 ≤ num := by omega
      have hrec : sigBits num = sigBits (num / 2) + 1 := sigBits_step num hnum2
      obtain ⟨m', rfl⟩ : ∃ m', m = m' + 1 := ⟨m - 1, by omega⟩
      have hm0 : ¬m' = 0 := by have := sigBits_pos (num / 2); omega
      have hdiv : ¬num / 2 = 0 := by omega
      have hunf : num2binLoop num (m' + 1) buf =
          num2binLoop (num / 2) m'
            (fun i => if i = m' - 1 then (if num % 2 = 0 then '0' else '1') else buf i) := by
        simp [num2binLoop, hm0, hdiv]
      have hm' : sigBits (num / 2) + 1 ≤ m' := by omega
      obtain ⟨ih2, ihpres, ihseg⟩ := ih (num / 2) (by omega) m'
        (fun i => if i = m' - 1 then (if num % 2 = 0 then '0' else '1') else buf i) hm'
      rw [hunf]
      refine ⟨by rw [ih2]; omega, ?_, ?_⟩
      · intro i hi
        rw [ihpres i (by omega)]
        have hne : ¬i = m' - 1 := by omega
        simp [hne]
      · rw [hrec]
        have hstart : m' + 1 - 1 - (sigBits (num / 2) + 1) = m' - 1 - sigBits (num / 2) := by
          omega
        rw [hstart, readSeg_snoc]
        have hend : m' - 1 - sigBits (num / 2) + sigBits (num / 2) = m' - 1 := by omega
        rw [hend, ihseg, ihpres (m' - 1) le_rfl, specBinaryRep_append num hnum2]
        simp

/-- The string num2bin leaves for its caller, whenever the capacity covers the
significant bits plus the terminator slot: exactly the minimal binary
representation. -/
theorem num2binStr_eq (V cap : Nat) (buf : Nat → Char) (h : sigBits V + 1 ≤ cap) :
    num2binStr V buf cap = some (specBinaryRep V) := by
  have hpos := sigBits_pos V
  obtain ⟨h2, hpres, hseg⟩ := num2binLoop_spec V cap
    (fun i => if i = cap - 1 then Char.ofNat 0 else buf i) h
  have hres : num2binStr V buf cap =
      (if (0 : Int) ≤
          ((num2binLoop V cap (fun i => if i = cap - 1 then Char.ofNat 0 else buf i)).2 : Int)
            - 1 then
        some (readFrom
          (num2binLoop V cap (fun i => if i = cap - 1 then Char.ofNat 0 else buf i)).1
          ((((num2binLoop V cap
            (fun i => if i = cap - 1 then Char.ofNat 0 else buf i)).2 : Int) - 1).toNat) cap)
      else none) := rfl
  rw [hres, h2]
  rw [if_pos (by omega : (0 : Int) ≤ ((cap - sigBits V : Nat) : Int) - 1)]
  have hidx : (((cap - sigBits V : Nat) : Int) - 1).toNat = cap - 1 - sigBits V := by omega
  rw [hidx]
  refine congrArg some ?_
  refine readFrom_of_seg (sigBits V) _ _ cap _ hseg ?_ ?_ (by omega)
  · intro c hc
    rcases specBinaryRep_chars V c hc with rfl | rfl <;> decide
  · have hidx2 : cap - 1 - sigBits V + sigBits V = cap - 1 := by omega
    rw [hidx2, hpres (cap - 1) le_rfl]
    simp

/-! ### Properties of the strtoull model on digit strings -/

theorem not_digit_space : ∀ (b : Nat) (c : Char), isSpaceC c = true → digitOk b c = false := by
  intro b c hs
  unfold isSpaceC at hs
  simp only [Bool.or_eq_true, beq_iff_eq] at hs
  rcases hs with ((((rfl | rfl) | rfl) | rfl) | rfl) | rfl <;> rfl

theorem digit_not_space {b : Nat} {c : Char} (h : digitOk b c = true) : isSpaceC c = false := by
  cases hs : isSpaceC c
  · rfl
  · rw [not_digit_space b c hs] at h
    cases h

theorem digit_ne_minus {b : Nat} {c : Char} (h : digitOk b c = true) : ¬c = '-' := by
  intro hc
  subst hc
  rw [show digitOk b '-' = false from rfl] at h
  cases h

theorem digit_ne_plus {b : Nat} {c : Char} (h : digitOk b c = true) : ¬c = '+' := by
  intro hc
  subst hc
  rw [show digitOk b '+' = false from rfl] at h
  cases h

theorem digitOk_some {b : Nat} {c : Char} (h : digitOk b c = true) :
    ∃ d, digitVal c = some d ∧ d < b := by
  unfold digitOk at h
  rcases hdv : digitVal c with _ | d
  · rw [hdv] at h
    cases h
  · rw [hdv] at h
    simp only [decide_eq_true_eq] at h
    exact ⟨d, rfl, h⟩

theorem dropSpaces_cons {c : Char} {cs : List Char} (h : isSpaceC c = false) :
    dropSpaces (c :: cs) = c :: cs := by
  simp [dropSpaces, h]

theorem signSplit_no_sign {c : Char} {cs : List Char} (h1 : ¬c = '-') (h2 : ¬c = '+') :
    signSplit (c :: cs) = (false, c :: cs) := by
  simp [signSplit, h1, h2]

theorem hexMark16_false {b : Nat} {s : List Char} (hb : 2 ≤ b)
    (hd : ∀ c ∈ s, digitOk b c = true) : hexMark16 b s = false := by
  rcases s with _ | ⟨c0, _ | ⟨c1, r⟩⟩
  · rfl
  · rfl
  · by_cases h16 : b = 16
    · subst h16
      have hc1 : digitOk 16 c1 = true := hd c1 (by simp)
      have hx : ¬c1 = 'x' := by
        intro h
        subst h
        rw [show digitOk 16 'x' = false from rfl] at hc1
        cases hc1
      have hX : ¬c1 = 'X' := by
        intro h
        subst h
        rw [show digitOk 16 'X' = false from rfl] at hc1
        cases hc1
      have hor : (c1 == 'x' || c1 == 'X') = false := by simp [hx, hX]
      simp [hexMark16, hor]
    · have h0 : ¬b = 0 := by omega
      have hor : (b == 16 || b == 0) = false := by simp [h16, h0]
      simp [hexMark16, hor]

theorem resolveBase_digits {b : Nat} {s : List Char} (hb : 2 ≤ b)
    (hd : ∀ c ∈ s, digitOk b c = true) : resolveBase b s = (b, s) := by
  unfold resolveBase
  rw [hexMark16_false hb hd]
  simp [show ¬b = 0 by omega]

theorem parseDigits_all {b : Nat} : ∀ (s : List Char) (acc : Nat),
    (∀ c ∈ s, digitOk b c = true) → parseDigits b acc s = (evalAcc b acc s, []) := by
  intro s
  induction s with
  | nil => intro acc _; rfl
  | cons c cs ih =>
    intro acc hd
    obtain ⟨d, hdv, hdb⟩ := digitOk_some (hd c (by simp))
    have hdval : dval c = d := by simp [dval, hdv]
    simp only [parseDigits, hdv, if_pos hdb, evalAcc, hdval]
    exact ih _ (fun c hc => hd c (by simp [hc]))

theorem strtoullModel_digits {b : Nat} {s : List Char} (hb : 2 ≤ b) (hne : ¬s = [])
    (hd : ∀ c ∈ s, digitOk b c = true) :
    strtoullModel s b =
      if 2 ^ 64 ≤ specNumeralValue b s then
        { val := 2 ^ 64 - 1, rest := [], erange := true }
      else { val := specNumeralValue b s, rest := [], erange := false } := by
  obtain ⟨c, cs, rfl⟩ := List.exists_cons_of_ne_nil hne
  have hc := hd c (List.mem_cons_self c cs)
  have h1 : dropSpaces (c :: cs) = c :: cs := dropSpaces_cons (digit_not_space hc)
  have h2 : signSplit (c :: cs) = (false, c :: cs) :=
    signSplit_no_sign (digit_ne_minus hc) (digit_ne_plus hc)
  have h3 : resolveBase b (c :: cs) = (b, c :: cs) := resolveBase_digits hb hd
  have h4 : parseDigits b 0 (c :: cs) = (specNumeralValue b (c :: cs), []) :=
    parseDigits_all (c :: cs) 0 hd
  simp only [strtoullModel, h1, h2, h3, h4]
  rw [if_neg (by simp)]
  simp

theorem str2ull_digits_success (b : Nat) (s : List Char) (w : Nat) (hb : 2 ≤ b)
    (hne : ¬s = []) (hd : ∀ c ∈ s, digitOk b c = true)
    (hv : specNumeralValue b s < 2 ^ 64) :
    str2ull false (some s) (some w) b = (Errorcode.SUCCESS, some (specNumeralValue b s)) := by
  have hr : strtoullModel s b =
      { val := specNumeralValue b s, rest := [], erange := false } := by
    rw [strtoullModel_digits hb hne hd, if_neg (by omega)]
  simp only [str2ull, if_neg hne, hr]
  rw [if_neg (fun h => hne (h.2.symm))]
  simp

theorem str2ull_digits_overflow (b : Nat) (s : List Char) (w : Nat) (hb : 2 ≤ b)
    (hne : ¬s = []) (hd : ∀ c ∈ s, digitOk b c = true)
    (hv : 2 ^ 64 ≤ specNumeralValue b s) :
    str2ull false (some s) (some w) b = (Errorcode.OVERFLOW, some w) := by
  have hr : strtoullModel s b =
      { val := 2 ^ 64 - 1, rest := [], erange := true } := by
    rw [strtoullModel_digits hb hne hd, if_pos hv]
  simp only [str2ull, if_neg hne, hr]
  rw [if_neg (fun h => hne (h.2.symm))]
  simp

theorem str2ull_minus_core (b : Nat) (s : List Char) (w : Nat) (hb : 2 ≤ b)
    (hne : ¬s = []) (hd : ∀ c ∈ s, digitOk b c = true)
    (hv : specNumeralValue b s < 2 ^ 64) :
    str2ull false (some ('-' :: s)) (some w) b =
      (Errorcode.SUCCESS, some ((2 ^ 64 - specNumeralValue b s) % 2 ^ 64)) := by
  obtain ⟨c, cs, rfl⟩ := List.exists_cons_of_ne_nil hne
  have hc := hd c (List.mem_cons_self c cs)
  have h1 : dropSpaces ('-' :: c :: cs) = '-' :: c :: cs := dropSpaces_cons rfl
  have h2 : signSplit ('-' :: c :: cs) = (true, c :: cs) := by simp [signSplit]
  have h3 : resolveBase b (c :: cs) = (b, c :: cs) := resolveBase_digits hb hd
  have h4 : parseDigits b 0 (c :: cs) = (specNumeralValue b (c :: cs), []) :=
    parseDigits_all (c :: cs) 0 hd
  have hr : strtoullModel ('-' :: c :: cs) b =
      { val := (2 ^ 64 - specNumeralValue b (c :: cs)) % 2 ^ 64, rest := [],
        erange := false } := by
    simp only [strtoullModel, h1, h2, h3, h4]
    rw [if_neg (by simp), if_neg (by omega)]
    simp
  simp only [str2ull, if_neg (by simp : ¬('-' :: c :: cs : List Char) = []), hr]
  rw [if_neg (by simp)]
  simp

/-! ### The claims -/

/-- Claim C1: round-trip law — formatting any value representable as an
unsigned 64-bit integer with num2bin into a buffer of capacity 1024 and
parsing the resulting string back with str2ull in base 2 returns SUCCESS
with exactly that value. -/
theorem round_trip_num2bin_str2ull (V : Nat) (buf : Nat → Char) (w : Nat)
    (hV : V < 2 ^ 64) :
    ∃ s, num2binStr V buf 1024 = some s ∧
      str2ull false (some s) (some w) 2 = (Errorcode.SUCCESS, some V) := by
  refine ⟨specBinaryRep V, ?_, ?_⟩
  · exact num2binStr_eq V 1024 buf (by have := sigBits_le 64 (by omega) V hV; omega)
  · have hne : ¬specBinaryRep V = [] := by
      intro h
      have hp := sigBits_pos V
      unfold sigBits at hp
      rw [h] at hp
      simp at hp
    have hd : ∀ c ∈ specBinaryRep V, digitOk 2 c = true := by
      intro c hc
      rcases specBinaryRep_chars V c hc with rfl | rfl <;> rfl
    have hv : specNumeralValue 2 (specBinaryRep V) < 2 ^ 64 := by
      rw [specNumeralValue_rep]
      exact hV
    have h := str2ull_digits_success 2 (specBinaryRep V) w (by omega) hne hd hv
    rw [specNumeralValue_rep] at h
    exact h

/-- Witness for C1 at the concrete value 5. -/
theorem round_trip_num2bin_str2ull_witness :
    5 < 2 ^ 64 ∧
      ∃ s, num2binStr 5 (fun _ => 'A') 1024 = some s ∧
        str2ull false (some s) (some 0) 2 = (Errorcode.SUCCESS, some 5) :=
  ⟨by decide, round_trip_num2bin_str2ull 5 (fun _ => 'A') 0 (by decide)⟩

/-- Claim C2: parser correctness — for every base b with 2 ≤ b ≤ 36 and every
nonempty string of valid base-b digits (letters of either case for bases
above 10) whose denoted value fits in an unsigned 64-bit integer, str2ull
returns SUCCESS and stores exactly the denoted value. -/
theorem str2ull_parses_valid_numerals (b : Nat) (s : List Char) (w : Nat)
    (hb2 : 2 ≤ b) (hb36 : b ≤ 36) (hne : ¬s = [])
    (hd : ∀ c ∈ s, digitOk b c = true) (hv : specNumeralValue b s < 2 ^ 64) :
    str2ull false (some s) (some w) b = (Errorcode.SUCCESS, some (specNumeralValue b s)) :=
  str2ull_digits_success b s w hb2 hne hd hv

/-- Witness for C2 on the base-16 numeral 1aF (mixed-case letters). -/
theorem str2ull_parses_valid_numerals_witness :
    (2 ≤ 16 ∧ 16 ≤ 36 ∧ ¬(['1', 'a', 'F'] : List Char) = [] ∧
      (∀ c ∈ (['1', 'a', 'F'] : List Char), digitOk 16 c = true) ∧
      specNumeralValue 16 ['1', 'a', 'F'] < 2 ^ 64) ∧
    str2ull false (some ['1', 'a', 'F']) (some 0) 16 =
      (Errorcode.SUCCESS, some (specNumeralValue 16 ['1', 'a', 'F'])) :=
  ⟨⟨by decide, by decide, by decide, by decide, by decide⟩,
    str2ull_parses_valid_numerals 16 ['1', 'a', 'F'] 0 (by decide) (by decide) (by decide)
      (by decide) (by decide)⟩

/-- Claim C3 (code bug): with value 5 and capacity 2 — insufficient for three
significant binary digits plus the terminator slot — num2bin does NOT return
the NULL pointer its own documentation and the spec promise: it returns the
pointer at offset -1 (the C expression buf - 1, since the final counter n is
0 and it returns a pointer to buf[n-1]), which is not NULL, and it has
already written the partial digit 1 into buf[0]. -/
theorem num2bin_insufficient_capacity_not_null :
    (num2bin 5 (fun _ => 'A') 2).2 = some (-1) ∧
      (num2bin 5 (fun _ => 'A') 2).1 0 = '1' ∧
      ¬(num2bin 5 (fun _ => 'A') 2).2 = none :=
  ⟨by decide, by decide, by decide⟩

/-- Claim C4: formatter output shape — with capacity at least the number of
significant binary digits plus one, num2bin produces exactly the minimal
binary representation: its length is the number of significant binary
digits, its leading digit is 1 for every nonzero value, and the value zero
formats as the single character 0 (for any capacity at least 2, since
sigBits 0 = 1). -/
theorem num2bin_formats_minimal_binary (V cap : Nat) (buf : Nat → Char)
    (h : sigBits V + 1 ≤ cap) :
    num2binStr V buf cap = some (specBinaryRep V) ∧
      (specBinaryRep V).length = sigBits V ∧
      specBinaryRep 0 = ['0'] ∧
      (1 ≤ V → (specBinaryRep V).head? = some '1') :=
  ⟨num2binStr_eq V cap buf h, rfl, rfl, fun hv => specBinaryRep_head V hv⟩

/-- Witness for C4 at value 0 with the minimal sufficient capacity 2. -/
theorem num2bin_formats_minimal_binary_witness :
    sigBits 0 + 1 ≤ 2 ∧
      (num2binStr 0 (fun _ => 'A') 2 = some (specBinaryRep 0) ∧
        (specBinaryRep 0).length = sigBits 0 ∧
        specBinaryRep 0 = ['0'] ∧
        (1 ≤ 0 → (specBinaryRep 0).head? = some '1')) :=
  ⟨by decide, num2bin_formats_minimal_binary 0 2 (fun _ => 'A') (by decide)⟩

/-- Claim C5 (code bug): str2ull classifies a NULL string, an empty string
and a NULL num pointer as INVALID_ARGS — never SUCCESS — and leaves the
stored value unchanged; but the host program does NOT abort on such input:
the switch in ensurenum has no case for INVALID_ARGS, falls through, and
returns the uninitialized temporary (here the arbitrary value temp), so the
program continues instead of exiting with code 1. -/
theorem str2ull_invalid_args_no_abort (temp w b : Nat) :
    str2ull false (some []) (some w) b = (Errorcode.INVALID_ARGS, some w) ∧
      str2ull false none (some w) b = (Errorcode.INVALID_ARGS, some w) ∧
      str2ull false (some ['1']) none b = (Errorcode.INVALID_ARGS, none) ∧
      ensurenum temp false (some []) none b = Except.ok temp :=
  ⟨rfl, rfl, rfl, rfl⟩

/-- Claim C6: overflow atomicity — a digit string denoting a value beyond the
unsigned 64-bit range makes str2ull return OVERFLOW and leaves the caller's
stored value unchanged. -/
theorem str2ull_overflow_unchanged (b : Nat) (s : List Char) (w : Nat)
    (hb2 : 2 ≤ b) (hb36 : b ≤ 36) (hne : ¬s = [])
    (hd : ∀ c ∈ s, digitOk b c = true) (hv : 2 ^ 64 ≤ specNumeralValue b s) :
    str2ull false (some s) (some w) b = (Errorcode.OVERFLOW, some w) :=
  str2ull_digits_overflow b s w hb2 hne hd hv

/-- Witness for C6 on the decimal numeral 99999999999999999999 with prior
stored value 7. -/
theorem str2ull_overflow_unchanged_witness :
    (2 ≤ 10 ∧ 10 ≤ 36 ∧
      ¬(['9', '9', '9', '9', '9', '9', '9', '9', '9', '9', '9', '9', '9', '9', '9', '9',
        '9', '9', '9', '9'] : List Char) = [] ∧
      (∀ c ∈ (['9', '9', '9', '9', '9', '9', '9', '9', '9', '9', '9', '9', '9', '9', '9',
        '9', '9', '9', '9', '9'] : List Char), digitOk 10 c = true) ∧
      2 ^ 64 ≤ specNumeralValue 10 ['9', '9', '9', '9', '9', '9', '9', '9', '9', '9', '9',
        '9', '9', '9', '9', '9', '9', '9', '9', '9']) ∧
    str2ull false (some ['9', '9', '9', '9', '9', '9', '9', '9', '9', '9', '9', '9', '9',
        '9', '9', '9', '9', '9', '9', '9']) (some 7) 10 = (Errorcode.OVERFLOW, some 7) :=
  ⟨⟨by decide, by decide, by decide, by decide, by decide⟩,
    str2ull_overflow_unchanged 10 ['9', '9', '9', '9', '9', '9', '9', '9', '9', '9', '9',
        '9', '9', '9', '9', '9', '9', '9', '9', '9'] 7 (by decide) (by decide) (by decide)
      (by decide) (by decide)⟩

/-- Claim C7: parsing 12x in base 10 returns INCOMPLETE and stores the
partial value 12, while parsing x12 in base 10 consumes no characters and
returns FAILURE with the stored value untouched. -/
theorem str2ull_incomplete_vs_failure (w : Nat) :
    str2ull false (some ['1', '2', 'x']) (some w) 10 = (Errorcode.INCOMPLETE, some 12) ∧
      str2ull false (some ['x', '1', '2']) (some w) 10 = (Errorcode.FAILURE, some w) :=
  ⟨rfl, rfl⟩

/-- Claim C8: ensurebase fails with exit code 1 exactly for candidates
outside [2, 36] and returns every in-range candidate unchanged; in
particular 1 and 37 fail while 2 and 36 succeed. -/
theorem ensurebase_range_check :
    (∀ b : Int, ensurebase b = if b < 2 ∨ 36 < b then Except.error 1 else Except.ok b) ∧
      ensurebase 1 = Except.error 1 ∧ ensurebase 37 = Except.error 1 ∧
      ensurebase 2 = Except.ok 2 ∧ ensurebase 36 = Except.ok 36 :=
  ⟨fun _ => rfl, rfl, rfl, rfl, rfl⟩

/-- Claim C9 counterexample: str2ull DOES return SUCCESS for a numeral with a
leading minus sign — parsing -1 in base 10 succeeds and stores
18446744073709551615, the negation of 1 modulo 2 ^ 64, so signed-looking
input is not rejected. -/
theorem str2ull_accepts_minus_counterexample :
    str2ull false (some ['-', '1']) (some 0) 10 =
      (Errorcode.SUCCESS, some (2 ^ 64 - 1)) := by decide

/-- Claim C9 amended: a numeral with a leading minus sign whose digit part is
a valid base-b numeral with value below 2 ^ 64 IS accepted by str2ull with
SUCCESS; the stored value is the denoted value negated modulo 2 ^ 64 (the
strtoull unsigned negation), so no mathematically negative value is ever
produced, but minus-signed input is not rejected. -/
theorem str2ull_minus_success (b : Nat) (s : List Char) (w : Nat)
    (hb2 : 2 ≤ b) (hb36 : b ≤ 36) (hne : ¬s = [])
    (hd : ∀ c ∈ s, digitOk b c = true) (hv : specNumeralValue b s < 2 ^ 64) :
    str2ull false (some ('-' :: s)) (some w) b =
      (Errorcode.SUCCESS, some ((2 ^ 64 - specNumeralValue b s) % 2 ^ 64)) :=
  str2ull_minus_core b s w hb2 hne hd hv

/-- Witness for the amended C9 on the numeral -1 in base 10. -/
theorem str2ull_minus_success_witness :
    (2 ≤ 10 ∧ 10 ≤ 36 ∧ ¬(['1'] : List Char) = [] ∧
      (∀ c ∈ (['1'] : List Char), digitOk 10 c = true) ∧
      specNumeralValue 10 ['1'] < 2 ^ 64) ∧
    str2ull false (some ['-', '1']) (some 0) 10 =
      (Errorcode.SUCCESS, some ((2 ^ 64 - specNumeralValue 10 ['1']) % 2 ^ 64)) :=
  ⟨⟨by decide, by decide, by decide, by decide, by decide⟩,
    str2ull_minus_success 10 ['1'] 0 (by decide) (by decide) (by decide) (by decide)
      (by decide)⟩

/-- Claim C10: the -b candidate is parsed as an unsigned 64-bit integer and
narrowed to a 32-bit signed int before range validation, so ensurebase only
ever observes the narrowed value and accepts unchanged every candidate whose
narrowed value lies in [2, 36]; in particular the full option pipeline maps
the candidate text 4294967298 to base 2. -/
theorem base_option_narrowing (v : Nat) (h2 : 2 ≤ toCInt v) (h36 : toCInt v ≤ 36) :
    ensurebase (toCInt v) = Except.ok (toCInt v) ∧
      (∀ temp, processBaseOption temp false
        (some ['4', '2', '9', '4', '9', '6', '7', '2', '9', '8']) = Except.ok 2) := by
  constructor
  · unfold ensurebase
    rw [if_neg (by omega)]
  · intro temp
    have h : ensurenum temp false (some ['4', '2', '9', '4', '9', '6', '7', '2', '9', '8'])
        none 10 = Except.ok 4294967298 := rfl
    simp only [processBaseOption, h]
    rfl

/-- Witness for C10 at the concrete candidate 4294967298 = 2 ^ 32 + 2. -/
theorem base_option_narrowing_witness :
    (2 ≤ toCInt 4294967298 ∧ toCInt 4294967298 ≤ 36) ∧
      (ensurebase (toCInt 4294967298) = Except.ok (toCInt 4294967298) ∧
        (∀ temp, processBaseOption temp false
          (some ['4', '2', '9', '4', '9', '6', '7', '2', '9', '8']) = Except.ok 2)) :=
  ⟨⟨by decide, by decide⟩, base_option_narrowing 4294967298 (by decide) (by decide)⟩

end Repnum
